import Mathlib

/-!
# Verification of the klogrs log aggregation/filtering/highlighting engine

A shallow embedding of the core of `klogrs` (a Rust tool that tails and
merges Kubernetes pod logs, filters them with composable boolean filters,
and highlights matches).  Strings are modelled as `List Char` (Rust strings
are UTF-8; every operation exercised here acts on whole characters, except
the pod-short-name byte slicing, which is modelled on byte lists).

Embedded source files:
* `src/log_processor/filter.rs`   — `GrepFilter`, `LevelFilter`, `AndFilter`, `OrFilter`
* `src/log_processor/formatter.rs`— span merging of `write_highlighted_message`,
                                    `PrefixFormat::format` short-name slice
* `src/kubernetes/log.rs`         — `LogEntry::parse`
* `src/kubernetes/pod.rs`         — `PodInfo::short_name`
* `src/main.rs`                   — filter-expression combination in `run`,
                                    tail-mode buffering in `run_with_tail_no_follow`

The `regex` crate is modelled by a small regex AST with Brzozowski-derivative
matching, a recursive-descent compiler for the constructs the program
exercises (literals, escapes, grouping, alternation, repetition, dot), and
`regex::escape` (backslash before every meta character).  Constructs the
model does not support (classes, counted repetition, anchors) make the
compiler fail, which only ever sends `GrepFilter::new` into its
literal-escape fallback.  The `LevelFilter` patterns (which use `\b`, `\d{4}`
and `(?i)` — position-dependent constructs outside the AST) are embedded
semantically: a direct decision procedure for each alternative of the
generated pattern.
-/

namespace Klogrs

/-! ## Generic string (List Char) helpers -/

/-- `needle` is a prefix of `hay` (character-exact). -/
def startsWithChars : List Char → List Char → Bool
  | [], _ => true
  | _ :: _, [] => false
  | a :: as_, b :: bs => a = b && startsWithChars as_ bs

/-- Rust `str::contains(substring)`: `needle` occurs contiguously in `hay`. -/
def containsSub (needle : List Char) : List Char → Bool
  | [] => startsWithChars needle []
  | c :: rest => startsWithChars needle (c :: rest) || containsSub needle rest

/-- Rust `str::split(sep)` for a one-character separator: the list of
fragments between occurrences of `sep` (an empty input gives `[[]]`,
matching `"".split(c)` yielding one empty fragment). -/
def splitOnChar (sep : Char) : List Char → List (List Char)
  | [] => [[]]
  | c :: rest =>
    match splitOnChar sep rest with
    | [] => [[c]]
    | g :: gs => if c = sep then [] :: g :: gs else (c :: g) :: gs

/-- Rust `str::trim`: drop leading and trailing whitespace. -/
def trimChars (l : List Char) : List Char :=
  ((l.dropWhile Char.isWhitespace).reverse.dropWhile Char.isWhitespace).reverse

/-- Uppercase a string character by character.  Models Rust
`str::to_uppercase` on the inputs that matter here (the level names are
ASCII, and any character that does not ASCII-uppercase into a level name
cannot produce a valid level either way). -/
def upperChars (l : List Char) : List Char := l.map Char.toUpper

/-! ## LogEntry (`src/kubernetes/log.rs`) -/

/-- One normalized log line plus provenance (`LogEntry` in
`src/kubernetes/log.rs`). -/
structure LogEntry where
  pod_name : List Char
  raw_line : List Char
  message : List Char
  deriving DecidableEq, Repr

/-- `raw_line.replace('\r', "").replace('\0', "")`: removing every
occurrence of each character is filtering both out. -/
def cleanLine (raw : List Char) : List Char :=
  raw.filter (fun c => c ≠ '\r' && c ≠ '\x00')

/-- `clean_line.find(" ")` followed by slicing after it: everything after
the first space, or `none` when there is no space. -/
def afterFirstSpace : List Char → Option (List Char)
  | [] => none
  | c :: rest => if c = ' ' then some rest else afterFirstSpace rest

/-- `LogEntry::parse` (`src/kubernetes/log.rs` lines 25–44). -/
def LogEntry.parse (pod_name raw_line : List Char) : LogEntry :=
  let clean := cleanLine raw_line
  { pod_name := pod_name,
    raw_line := clean,
    message :=
      match afterFirstSpace clean with
      | some m => m
      | none => clean }

/-! ## Highlight-span merging (`LogFormatter::write_highlighted_message`,
`src/log_processor/formatter.rs` lines 141–166) -/

/-- Stable insertion of a span into a list sorted by start.  Together with
`sortSpans` this is a stable sort by the first component, hence produces
exactly the output of Rust's stable `sort_by_key(|&(start, _)| start)`
(stable-sort output is unique). -/
def insertSpan (x : Nat × Nat) : List (Nat × Nat) → List (Nat × Nat)
  | [] => [x]
  | y :: ys => if x.1 ≤ y.1 then x :: y :: ys else y :: insertSpan x ys

/-- Stable sort of spans by start ascending (models
`matches.sort_by_key(|&(start, _)| start)`). -/
def sortSpans : List (Nat × Nat) → List (Nat × Nat)
  | [] => []
  | x :: xs => insertSpan x (sortSpans xs)

/-- The merge loop over the sorted spans.  The Rust code pushes onto a
`Vec` and mutates its last element; here the accumulator is kept reversed
so that the last pushed span is the head. -/
def mergeLoop : List (Nat × Nat) → List (Nat × Nat) → List (Nat × Nat)
  | acc, [] => acc.reverse
  | acc, (s, e) :: rest =>
    match acc with
    | [] => mergeLoop [(s, e)] rest
    | (ls, le) :: accTail =>
      if s ≤ le then mergeLoop ((ls, max le e) :: accTail) rest
      else mergeLoop ((s, e) :: (ls, le) :: accTail) rest

/-- Span merging of `write_highlighted_message`: sort by start, then merge
every span whose start is ≤ the last emitted end. -/
def mergeMatches (spans : List (Nat × Nat)) : List (Nat × Nat) :=
  mergeLoop [] (sortSpans spans)

/-! ## Regex model (the `regex` crate at the program's boundary)

An AST with Brzozowski-derivative matching and a recursive-descent
compiler covering the constructs `GrepFilter` patterns exercise. -/

/-- Regular-expression AST: empty language, empty string, one character,
any character (`.`), concatenation, alternation, Kleene star. -/
inductive RE where
  | emp : RE
  | eps : RE
  | chr : Char → RE
  | anyc : RE
  | seq : RE → RE → RE
  | alt : RE → RE → RE
  | star : RE → RE
  deriving DecidableEq, Repr

/-- Does the regex accept the empty string? -/
def RE.nullable : RE → Bool
  | .emp => false
  | .eps => true
  | .chr _ => false
  | .anyc => false
  | .seq a b => a.nullable && b.nullable
  | .alt a b => a.nullable || b.nullable
  | .star _ => true

/-- Brzozowski derivative with respect to one character. -/
def RE.deriv : RE → Char → RE
  | .emp, _ => .emp
  | .eps, _ => .emp
  | .chr c, x => if x = c then .eps else .emp
  | .anyc, _ => .eps
  | .seq a b, x =>
    if a.nullable then .alt (.seq (a.deriv x) b) (b.deriv x) else .seq (a.deriv x) b
  | .alt a b, x => .alt (a.deriv x) (b.deriv x)
  | .star a, x => .seq (a.deriv x) (.star a)

/-- Does some prefix of `s` match `r` in full? -/
def matchFromStart : RE → List Char → Bool
  | r, [] => r.nullable
  | r, c :: rest => r.nullable || matchFromStart (r.deriv c) rest

/-- Unanchored search, the semantics of `Regex::is_match`: some substring
of `s` (equivalently: some prefix of some suffix) matches `r`. -/
def reSearch (r : RE) : List Char → Bool
  | [] => r.nullable
  | c :: rest => matchFromStart r (c :: rest) || reSearch r rest

/-- The meta characters of `regex::escape` / `regex_syntax::is_meta_character`. -/
def isMeta (c : Char) : Bool :=
  c = '\\' || c = '.' || c = '+' || c = '*' || c = '?' || c = '(' || c = ')' ||
  c = '|' || c = '[' || c = ']' || c = '{' || c = '}' || c = '^' || c = '$' ||
  c = '#' || c = '&' || c = '-' || c = '~'

/-- `regex::escape`: a backslash before every meta character. -/
def escapeChars (s : List Char) : List Char :=
  s.flatMap (fun c => if isMeta c then ['\\', c] else [c])

/-- Combine a reversed run of atoms into their concatenation. -/
def seqOf (seqRev : List RE) : RE :=
  seqRev.foldl (fun acc r => RE.seq r acc) RE.eps

/-- Close a group: the current sequence plus the previously collected
(reversed) alternatives. -/
def finishFrame (alts : List RE) (seqRev : List RE) : RE :=
  alts.foldl (fun acc a => RE.alt a acc) (seqOf seqRev)

/-- Recursive-descent regex compiler.  `st` is the stack of enclosing
groups (their pending alternatives and sequence), `alts`/`seqRev` the
current group's state.  Character classes, counted repetition and anchors
are outside the modelled subset and fail compilation (then `GrepFilter`
behaves as if compilation failed, i.e. falls back to the escaped literal;
no claim exercises those constructs with a compiling pattern). -/
def parseLoop : List Char → List (List RE × List RE) → List RE → List RE → Option RE
  | [], st, alts, seqRev =>
    match st with
    | [] => some (finishFrame alts seqRev)
    | _ :: _ => none
  | c :: rest, st, alts, seqRev =>
    if c = '\\' then
      match rest with
      | [] => none
      | d :: rest2 => parseLoop rest2 st alts (RE.chr d :: seqRev)
    else if c = '(' then parseLoop rest ((alts, seqRev) :: st) [] []
    else if c = ')' then
      match st with
      | [] => none
      | (palts, pseq) :: st2 => parseLoop rest st2 palts (finishFrame alts seqRev :: pseq)
    else if c = '|' then parseLoop rest st (seqOf seqRev :: alts) []
    else if c = '*' then
      match seqRev with
      | [] => none
      | r :: rs => parseLoop rest st alts (RE.star r :: rs)
    else if c = '+' then
      match seqRev with
      | [] => none
      | r :: rs => parseLoop rest st alts (RE.seq r (RE.star r) :: rs)
    else if c = '?' then
      match seqRev with
      | [] => none
      | r :: rs => parseLoop rest st alts (RE.alt r RE.eps :: rs)
    else if c = '.' then parseLoop rest st alts (RE.anyc :: seqRev)
    else if c = '[' then none
    else if c = '{' then none
    else if c = '^' then none
    else if c = '$' then none
    else parseLoop rest st alts (RE.chr c :: seqRev)

/-- `Regex::new`. -/
def reCompile (pattern : List Char) : Option RE :=
  parseLoop pattern [] [] []

/-! ## Level matcher (`LevelFilter::new`, `src/log_processor/filter.rs`
lines 72–101)

`LevelFilter::new` builds (with `format!`) a case-insensitive pattern whose
four alternatives are, for the uppercased level `L`: `L` in square brackets;
`L:` at a word boundary; a date (4 digits, a dash-or-slash separator, 2
digits, separator, 2 digits) then lazily anything then `L:` at a word
boundary; and `L` as a standalone word — the dedicated `ERROR` arm is this very
pattern with `L = ERROR` — and for WARN/WARNING the token is `WARN(?:ING)?`.
`\b`, `\d{4}` and `(?i)` are embedded semantically: the functions below
decide, position by position, whether one of the four alternatives matches,
tracking the previous character for word boundaries. -/

/-- Regex `\w` (word character), as relevant for `\b`. -/
def isWordChar (c : Char) : Bool := c.isAlphanum || c = '_'

/-- A word boundary sits before the (word-character-initial) token iff the
previous character is absent or not a word character. -/
def bndBefore : Option Char → Bool
  | none => true
  | some c => !isWordChar c

/-- Strip `pat` from the front of `s`, case-insensitively (`(?i)`). -/
def stripCI : List Char → List Char → Option (List Char)
  | [], s => some s
  | _ :: _, [] => none
  | p :: ps, c :: cs => if c.toUpper = p.toUpper then stripCI ps cs else none

/-- The possible remainders after the level token at the current position:
the token itself, and with `ing = true` (the `WARN(?:ING)?` case) also the
token followed by `ING`. -/
def tokenRests (tok : List Char) (ing : Bool) (s : List Char) : List (List Char) :=
  (match stripCI (tok ++ ['I', 'N', 'G']) s with
   | some r => if ing then [r] else []
   | none => []) ++
  (match stripCI tok s with
   | some r => [r]
   | none => [])

/-- Alternative 1: `\[TOK\]` at the current position. -/
def altBracket (tok : List Char) (ing : Bool) : List Char → Bool
  | '[' :: rest =>
    (tokenRests tok ing rest).any (fun r =>
      match r with
      | ']' :: _ => true
      | _ => false)
  | _ => false

/-- Alternative 2: `\bTOK:` at the current position. -/
def altColon (tok : List Char) (ing : Bool) (prev : Option Char) (s : List Char) : Bool :=
  bndBefore prev &&
    (tokenRests tok ing s).any (fun r =>
      match r with
      | ':' :: _ => true
      | _ => false)

/-- Alternative 4: `\bTOK\b` at the current position (the token ends in a
word character, so the trailing boundary holds iff the next character is
absent or not a word character). -/
def altWord (tok : List Char) (ing : Bool) (prev : Option Char) (s : List Char) : Bool :=
  bndBefore prev &&
    (tokenRests tok ing s).any (fun r =>
      match r with
      | [] => true
      | c :: _ => !isWordChar c)

/-- Consume exactly `n` decimal digits (`\d{n}`). -/
def stripDigits : Nat → List Char → Option (List Char)
  | 0, s => some s
  | _ + 1, [] => none
  | n + 1, c :: cs => if c.isDigit then stripDigits n cs else none

/-- Consume one date separator (dash or slash). -/
def stripDateSep : List Char → Option (List Char)
  | [] => none
  | c :: cs => if c = '-' || c = '/' then some cs else none

/-- Consume the date prefix: 4 digits, separator, 2 digits, separator,
2 digits. -/
def stripDate (s : List Char) : Option (List Char) :=
  match stripDigits 4 s with
  | none => none
  | some s1 =>
    match stripDateSep s1 with
    | none => none
    | some s2 =>
      match stripDigits 2 s2 with
      | none => none
      | some s3 =>
        match stripDateSep s3 with
        | none => none
        | some s4 => stripDigits 2 s4

/-- After the date, `.*?\bTOK:`: does `\bTOK:` match at some later
position?  The scan starts right after the date's final digit, so the
initial previous character is a word character (represented by `'0'`). -/
def hasColonTokenAfter (tok : List Char) (ing : Bool) : Option Char → List Char → Bool
  | _, [] => false
  | prev, c :: rest => altColon tok ing prev (c :: rest) || hasColonTokenAfter tok ing (some c) rest

/-- All four alternatives of the generated level pattern, tried at one
position. -/
def levelAltsAt (tok : List Char) (ing : Bool) (prev : Option Char) (s : List Char) : Bool :=
  altBracket tok ing s ||
  altColon tok ing prev s ||
  (match stripDate s with
   | some r => hasColonTokenAfter tok ing (some '0') r
   | none => false) ||
  altWord tok ing prev s

/-- Unanchored search of the level pattern over the whole line. -/
def levelSearch (tok : List Char) (ing : Bool) : Option Char → List Char → Bool
  | prev, [] => levelAltsAt tok ing prev []
  | prev, c :: rest => levelAltsAt tok ing prev (c :: rest) || levelSearch tok ing (some c) rest

/-- The compiled matcher of `LevelFilter` for a given (uppercased) level:
`WARN`/`WARNING` share the `WARN(?:ING)?` token, every other level (also
`ERROR`) uses the generic pattern with the level itself as token. -/
def levelMatcher (upperLvl : List Char) (s : List Char) : Bool :=
  if upperLvl = "WARN".toList || upperLvl = "WARNING".toList then
    levelSearch "WARN".toList true none s
  else
    levelSearch upperLvl false none s

/-! ## Filters (`src/log_processor/filter.rs`) -/

/-- The closed filter tree: `GrepFilter` (pattern plus compiled regex),
`LevelFilter` (its stored uppercased `level_str`; the compiled matcher is a
pure function of it, recomputed in `apply`), and the `AndFilter`/`OrFilter`
composites. -/
inductive Filter where
  | grep : List Char → RE → Filter
  | level : List Char → Filter
  | and : List Filter → Filter
  | or : List Filter → Filter

/-- `LevelFilter::should_exclude` (lines 104–110): an `ERROR` filter
excludes lines containing both `Trace[` and `error:`. -/
def shouldExclude (level_str text : List Char) : Bool :=
  level_str = "ERROR".toList &&
    containsSub "Trace[".toList text && containsSub "error:".toList text

mutual

/-- `Filter::apply`.  `GrepFilter` (lines 54–57) tests `raw_line` against
the compiled regex; `LevelFilter` (lines 114–122) checks the exclusion rule
first and then tests `raw_line` against its matcher; the composites are
`iter().all` / `iter().any` (lines 141–150 and 164–173). -/
def Filter.apply : Filter → LogEntry → Bool
  | .grep _ re, e => reSearch re e.raw_line
  | .level lvl, e =>
    if shouldExclude lvl e.raw_line then false
    else levelMatcher lvl e.raw_line
  | .and cs, e => Filter.applyAll cs e
  | .or cs, e => Filter.applyAny cs e

/-- `iter().all(|f| f.apply(entry))`, short-circuiting left to right. -/
def Filter.applyAll : List Filter → LogEntry → Bool
  | [], _ => true
  | f :: fs, e => f.apply e && Filter.applyAll fs e

/-- `iter().any(|f| f.apply(entry))`, short-circuiting left to right. -/
def Filter.applyAny : List Filter → LogEntry → Bool
  | [], _ => false
  | f :: fs, e => f.apply e || Filter.applyAny fs e

end

/-- `GrepFilter::new` (lines 24–39): compile the pattern; on failure,
compile the escaped pattern; the second failure (unreachable, as proved
below) propagates via `?`. -/
def grepNew (pattern : List Char) : Option Filter :=
  match reCompile pattern with
  | some re => some (.grep pattern re)
  | none =>
    match reCompile (escapeChars pattern) with
    | some re => some (.grep pattern re)
    | none => none

/-- The fixed valid level set of `LevelFilter::new` (line 74). -/
def validLevels : List (List Char) :=
  ["TRACE".toList, "DEBUG".toList, "INFO".toList, "WARN".toList,
   "WARNING".toList, "ERROR".toList, "ERR".toList, "FATAL".toList,
   "CRITICAL".toList]

/-- `LevelFilter::new` (lines 72–101): uppercase, validate against the
fixed set, fail with an invalid-level error otherwise.  (The subsequent
`Regex::new` on the generated pattern cannot fail for a valid level; the
matcher is derived from the stored `level_str`.) -/
def levelNew (level : List Char) : Option Filter :=
  let upper := upperChars level
  if upper ∈ validLevels then some (.level upper) else none

/-! ## Filter-expression combination (`run`, `src/main.rs` lines 62–151) -/

/-- The shared per-fragment loop of `run`: trim each fragment, skip empty
ones, build a leaf filter from each remaining one with `mk`, aborting with
the offending trimmed fragment on the first construction failure. -/
def collectFilters (mk : List Char → Option Filter) :
    List (List Char) → Except (List Char) (List Filter)
  | [] => .ok []
  | frag :: rest =>
    let t := trimChars frag
    if t = [] then collectFilters mk rest
    else
      match mk t with
      | some f =>
        match collectFilters mk rest with
        | .ok fs => .ok (f :: fs)
        | .error e => .error e
      | none => .error t

/-- The grep block of `run` (lines 66–111): split on `&` when the
expression contains one (AND), otherwise on `,` (OR); wrap the non-empty
leaf list in the corresponding composite; no filter if all fragments were
empty. -/
def grepCombinator (g : List Char) : Except (List Char) (Option Filter) :=
  let isAnd := g.elem '&'
  let pats := if isAnd then splitOnChar '&' g else splitOnChar ',' g
  match collectFilters grepNew pats with
  | .error t => .error t
  | .ok [] => .ok none
  | .ok (f :: fs) =>
    .ok (some (if isAnd then .and (f :: fs) else .or (f :: fs)))

/-- The level block of `run` (lines 114–142): always split on `,` and
combine with OR. -/
def levelCombinator (l : List Char) : Except (List Char) (Option Filter) :=
  match collectFilters levelNew (splitOnChar ',' l) with
  | .error t => .error t
  | .ok [] => .ok none
  | .ok (f :: fs) => .ok (some (.or (f :: fs)))

/-- Filter construction of `run` (lines 62–151): the grep combinator and
then the level combinator are pushed into `combined_filters`; two entries
are wrapped in an `AndFilter`, one is used directly, none yields an empty
filter list. -/
def buildFilters (grepExpr levelExpr : Option (List Char)) :
    Except (List Char) (List Filter) :=
  let cg : Except (List Char) (List Filter) :=
    match grepExpr with
    | none => .ok []
    | some g =>
      match grepCombinator g with
      | .error t => .error t
      | .ok none => .ok []
      | .ok (some f) => .ok [f]
  match cg with
  | .error t => .error t
  | .ok base =>
    let cl : Except (List Char) (List Filter) :=
      match levelExpr with
      | none => .ok []
      | some l =>
        match levelCombinator l with
        | .error t => .error t
        | .ok none => .ok []
        | .ok (some f) => .ok [f]
    match cl with
    | .error t => .error t
    | .ok base2 =>
      let combined := base ++ base2
      .ok (if combined.length > 1 then [Filter.and combined] else combined)

/-! ## Tail mode (`run_with_tail_no_follow`, `src/main.rs` lines 183–252) -/

/-- The per-entry filter gate of the render loops:
`if !filters.is_empty() && !filters.iter().all(|f| f.apply(&entry)) { continue }`. -/
def passesFilters (filters : List Filter) (e : LogEntry) : Bool :=
  !(!filters.isEmpty && !filters.all (fun f => f.apply e))

/-- One buffer per known pod (`pod_buffers`), keyed by pod name.  The Rust
`HashMap` is modelled as an association list in pod order; no claim
depends on cross-pod iteration order. -/
def initBuffers (pods : List (List Char)) : List (List Char × List LogEntry) :=
  pods.map (fun p => (p, []))

/-- `pod_buffers.get_mut(&entry.pod_name)` followed by `push`: append the
entry to the buffer of its pod, if that pod is known. -/
def updateBuffer : List (List Char × List LogEntry) → LogEntry →
    List (List Char × List LogEntry)
  | [], _ => []
  | (p, buf) :: rest, e =>
    if p = e.pod_name then (p, buf ++ [e]) :: rest
    else (p, buf) :: updateBuffer rest e

/-- The drain loop of `run_with_tail_no_follow` (lines 212–229): on `Ok`,
filter and buffer; on `Err`, log and continue. -/
def tailCollect (filters : List Filter) :
    List (List Char × List LogEntry) → List (Except (List Char) LogEntry) →
    List (List Char × List LogEntry)
  | buffers, [] => buffers
  | buffers, .ok e :: rest =>
    tailCollect filters
      (if passesFilters filters e then updateBuffer buffers e else buffers) rest
  | buffers, .error _ :: rest => tailCollect filters buffers rest

/-- The display loop (lines 232–249): for each pod with a non-empty
buffer, the last `tail_count` entries when the buffer is longer, otherwise
the whole buffer. -/
def tailDisplay (tailCount : Nat) (buffers : List (List Char × List LogEntry)) :
    List (List Char × List LogEntry) :=
  buffers.filterMap (fun pb =>
    if pb.2 = [] then none
    else some (pb.1,
      if pb.2.length > tailCount then pb.2.drop (pb.2.length - tailCount) else pb.2))

/-- `run_with_tail_no_follow`, given the merged stream as a list: initialize
one buffer per pod, drain the whole stream, then emit per-pod tails. -/
def runTailNoFollow (pods : List (List Char)) (tailCount : Nat)
    (filters : List Filter) (stream : List (Except (List Char) LogEntry)) :
    List (List Char × List LogEntry) :=
  tailDisplay tailCount (tailCollect filters (initBuffers pods) stream)

/-- Look a pod up in a buffer/display association list. -/
def lookupBuf (p : List Char) : List (List Char × List LogEntry) → Option (List LogEntry)
  | [] => none
  | (q, buf) :: rest => if q = p then some buf else lookupBuf p rest

/-! ## Short pod names (`PodInfo::short_name`, `src/kubernetes/pod.rs`
lines 48–54, and the `%s` substitution of `PrefixFormat::format`,
`src/log_processor/formatter.rs` lines 31–35)

Both slice the pod name by *byte* ranges, so the name is modelled as its
UTF-8 byte list; Rust's slice indexing panics when an offset is not a
character boundary, modelled as `none`. -/

/-- Rust `str::is_char_boundary`: offset 0 or the length, or a byte that is
not a UTF-8 continuation byte (`0x80..=0xBF`). -/
def isCharBoundary (bytes : List Nat) (i : Nat) : Bool :=
  if i = 0 then true
  else if i = bytes.length then true
  else if i < bytes.length then
    let b := bytes.getD i 0
    b < 128 || 192 ≤ b
  else false

/-- `PodInfo::short_name`: the name when it has at most 8 bytes, otherwise
the byte slice `[..8]` — which panics (`none`) when byte offset 8 is not a
character boundary. -/
def shortName (name : List Nat) : Option (List Nat) :=
  if name.length ≤ 8 then some name
  else if isCharBoundary name 8 then some (name.take 8)
  else none

/-- The `%s` substitution of `PrefixFormat::format`: the byte slice
`[..min(8, len)]`, panicking (`none`) off a character boundary. -/
def prefixShortSlice (name : List Nat) : Option (List Nat) :=
  let k := min 8 name.length
  if isCharBoundary name k then some (name.take k) else none

/-! ## Lemmas about span merging -/

theorem insertSpan_mem {a x : Nat × Nat} {l : List (Nat × Nat)} :
    a ∈ insertSpan x l ↔ a = x ∨ a ∈ l := by
  induction l with
  | nil => simp [insertSpan]
  | cons y ys ih =>
    by_cases h : x.1 ≤ y.1
    · simp [insertSpan, h]
    · simp only [insertSpan, h, if_false, List.mem_cons, ih]
      tauto

theorem sortSpans_mem {a : Nat × Nat} {l : List (Nat × Nat)} :
    a ∈ sortSpans l ↔ a ∈ l := by
  induction l with
  | nil => simp [sortSpans]
  | cons x xs ih => simp [sortSpans, insertSpan_mem, ih]

/-- The backward-gap chain over the reversed accumulator only constrains
the head through its start, so the merge step (which rewrites the head's
end) preserves it. -/
theorem chain_replaceSnd {t : List (Nat × Nat)} {ls le x : Nat}
    (h : List.Chain' (fun a b : Nat × Nat => b.2 < a.1) ((ls, le) :: t)) :
    List.Chain' (fun a b : Nat × Nat => b.2 < a.1) ((ls, x) :: t) := by
  cases t with
  | nil => simp
  | cons b bt =>
    rw [List.chain'_cons] at h ⊢
    exact ⟨h.1, h.2⟩

theorem mergeLoop_chain (input : List (Nat × Nat)) :
    ∀ acc : List (Nat × Nat), List.Chain' (fun a b : Nat × Nat => b.2 < a.1) acc →
      List.Chain' (fun a b : Nat × Nat => a.2 < b.1) (mergeLoop acc input) := by
  induction input with
  | nil =>
    intro acc h
    exact List.chain'_reverse.mpr h
  | cons hd rest ih =>
    obtain ⟨s, e⟩ := hd
    intro acc h
    cases acc with
    | nil => exact ih [(s, e)] (by simp)
    | cons top accTail =>
      obtain ⟨ls, le⟩ := top
      by_cases hle : s ≤ le
      · simpa [mergeLoop, hle] using ih ((ls, max le e) :: accTail) (chain_replaceSnd h)
      · have h2 : List.Chain' (fun a b : Nat × Nat => b.2 < a.1)
            ((s, e) :: (ls, le) :: accTail) := by
          rw [List.chain'_cons]
          exact ⟨by omega, h⟩
        simpa [mergeLoop, hle] using ih ((s, e) :: (ls, le) :: accTail) h2

theorem mergeLoop_wf (input : List (Nat × Nat)) :
    ∀ acc : List (Nat × Nat), (∀ p ∈ acc, p.1 ≤ p.2) → (∀ p ∈ input, p.1 ≤ p.2) →
      ∀ p ∈ mergeLoop acc input, p.1 ≤ p.2 := by
  induction input with
  | nil =>
    intro acc hacc _ p hp
    simp only [mergeLoop, List.mem_reverse] at hp
    exact hacc p hp
  | cons hd rest ih =>
    obtain ⟨s, e⟩ := hd
    intro acc hacc hin
    have hse : s ≤ e := hin (s, e) (by simp)
    have hrest : ∀ p ∈ rest, p.1 ≤ p.2 := fun p hp => hin p (by simp [hp])
    cases acc with
    | nil =>
      refine ih [(s, e)] ?_ hrest
      intro p hp
      simp at hp
      simp [hp, hse]
    | cons top accTail =>
      obtain ⟨ls, le⟩ := top
      have hls : ls ≤ le := hacc (ls, le) (by simp)
      by_cases hle : s ≤ le
      · simp only [mergeLoop, hle, if_true]
        refine ih _ ?_ hrest
        intro p hp
        rcases List.mem_cons.mp hp with hp | hp
        · subst hp
          simp
          omega
        · exact hacc p (by simp [hp])
      · simp only [mergeLoop, hle, if_false]
        refine ih _ ?_ hrest
        intro p hp
        rcases List.mem_cons.mp hp with hp | hp
        · subst hp; exact hse
        · exact hacc p hp

/-- A gap chain over well-formed spans is pairwise: each end is below every
later start. -/
theorem chain_gap_pairwise :
    ∀ l : List (Nat × Nat), List.Chain' (fun a b : Nat × Nat => a.2 < b.1) l →
      (∀ p ∈ l, p.1 ≤ p.2) →
      List.Pairwise (fun a b : Nat × Nat => a.2 < b.1) l := by
  intro l
  induction l with
  | nil => intro _ _; exact List.Pairwise.nil
  | cons x t iht =>
    intro hch hwf
    have ht : List.Pairwise (fun a b : Nat × Nat => a.2 < b.1) t :=
      iht hch.tail (fun p hp => hwf p (by simp [hp]))
    refine List.pairwise_cons.mpr ⟨?_, ht⟩
    cases t with
    | nil => simp
    | cons b bt =>
      have hxb : x.2 < b.1 := (List.chain'_cons.mp hch).1
      have hbwf : b.1 ≤ b.2 := hwf b (by simp)
      have hbt : ∀ y ∈ bt, b.2 < y.1 := (List.pairwise_cons.mp ht).1
      intro y hy
      rcases List.mem_cons.mp hy with hy | hy
      · subst hy; exact hxb
      · have := hbt y hy
        omega

/-- C1.  The highlighter's merge — sort all spans by start, then extend the
last emitted end over every span whose start is ≤ it — produces a list of
pairwise non-overlapping, sorted spans (each emitted end lies strictly
before every later start, and every emitted span is well-formed), and on
the input `[(0,3), (2,5), (10,12)]` it yields `[(0,5), (10,12)]`. -/
theorem highlighter_merge_spans :
    (∀ spans : List (Nat × Nat), (∀ p ∈ spans, p.1 ≤ p.2) →
        List.Pairwise (fun a b : Nat × Nat => a.2 < b.1) (mergeMatches spans) ∧
        (∀ p ∈ mergeMatches spans, p.1 ≤ p.2)) ∧
    mergeMatches [(0, 3), (2, 5), (10, 12)] = [(0, 5), (10, 12)] := by
  constructor
  · intro spans hwf
    have hsorted_wf : ∀ p ∈ sortSpans spans, p.1 ≤ p.2 :=
      fun p hp => hwf p (sortSpans_mem.mp hp)
    have hch : List.Chain' (fun a b : Nat × Nat => a.2 < b.1) (mergeMatches spans) :=
      mergeLoop_chain (sortSpans spans) [] (by simp)
    have hmwf : ∀ p ∈ mergeMatches spans, p.1 ≤ p.2 :=
      mergeLoop_wf (sortSpans spans) [] (by simp) hsorted_wf
    exact ⟨chain_gap_pairwise _ hch hmwf, hmwf⟩
  · decide

/-- Witness for C1: the merged example spans are pairwise non-overlapping. -/
theorem highlighter_merge_spans_witness :
    List.Pairwise (fun a b : Nat × Nat => a.2 < b.1)
      (mergeMatches [(0, 3), (2, 5), (10, 12)]) :=
  (highlighter_merge_spans.1 [(0, 3), (2, 5), (10, 12)] (by decide)).1

/-! ## Lemmas about grep-filter construction -/

set_option maxHeartbeats 3200000 in
/-- Parsing an escaped string always succeeds: every character comes out
either plain (and then it is no meta character, so the parser takes the
literal branch) or behind a backslash. -/
theorem parseLoop_escape (s : List Char) :
    ∀ alts seqRev : List RE, (parseLoop (escapeChars s) [] alts seqRev).isSome = true := by
  induction s with
  | nil => intro alts seqRev; simp [escapeChars, parseLoop]
  | cons c cs ih =>
    intro alts seqRev
    have he : escapeChars (c :: cs) =
        (if isMeta c then ['\\', c] else [c]) ++ escapeChars cs := rfl
    by_cases hm : isMeta c
    · rw [he, if_pos hm]
      simpa [parseLoop] using ih alts (RE.chr c :: seqRev)
    · rw [he, if_neg hm]
      simp only [isMeta, Bool.or_eq_true, decide_eq_true_eq, not_or] at hm
      obtain ⟨⟨⟨⟨⟨⟨⟨⟨⟨⟨⟨⟨⟨⟨⟨⟨⟨h1, h2⟩, h3⟩, h4⟩, h5⟩, h6⟩, h7⟩, h8⟩, h9⟩,
        _⟩, h11⟩, _⟩, h13⟩, h14⟩, _⟩, _⟩, _⟩, _⟩ := hm
      rw [parseLoop.eq_def]
      simp only [List.singleton_append, h1, h2, h3, h4, h5, h6, h7, h8, h9, h11, h13, h14,
        if_false]
      exact ih alts (RE.chr c :: seqRev)

/-- C2.  `GrepFilter::new` succeeds for every pattern: an invalid regex
falls back to the fully escaped literal, whose compilation always
succeeds.  In particular the invalid pattern `(` constructs a filter whose
compiled regex is the literal `(`, and that filter matches text containing
a literal `(`. -/
theorem grep_filter_construction_total :
    (∀ pattern : List Char, (grepNew pattern).isSome = true) ∧
    grepNew "(".toList = some (.grep "(".toList (.seq (.chr '(') .eps)) ∧
    (Filter.grep "(".toList (.seq (.chr '(') .eps)).apply
      { pod_name := "p".toList, raw_line := "foo ( bar".toList,
        message := "foo ( bar".toList } = true := by
  refine ⟨?_, rfl, by decide⟩
  intro pattern
  unfold grepNew reCompile
  cases hc : parseLoop pattern [] [] [] with
  | some re => simp
  | none =>
    have h := parseLoop_escape pattern [] []
    cases hp : parseLoop (escapeChars pattern) [] [] [] with
    | some re => simp
    | none => rw [hp] at h; simp at h

/-! ## Level filter: exclusion rule and validation -/

/-- C3.  `LevelFilter("ERROR").apply` evaluates the exclusion rule first:
any line containing both `Trace[` and `error:` is rejected; otherwise the
case-insensitive level matcher decides, accepting `[ERROR] disk full`,
rejecting `No errorenous conditions detected` (word-boundary match only)
and rejecting the `Trace[...] error:` diagnostic line. -/
theorem level_error_exclusion_rule :
    (∀ e : LogEntry, containsSub "Trace[".toList e.raw_line = true →
        containsSub "error:".toList e.raw_line = true →
        (Filter.level "ERROR".toList).apply e = false) ∧
    (Filter.level "ERROR".toList).apply
      { pod_name := "p".toList, raw_line := "[ERROR] disk full".toList,
        message := "disk full".toList } = true ∧
    (Filter.level "ERROR".toList).apply
      { pod_name := "p".toList,
        raw_line := "No errorenous conditions detected".toList,
        message := "errorenous conditions detected".toList } = false ∧
    (Filter.level "ERROR".toList).apply
      { pod_name := "p".toList,
        raw_line := "Trace[1292960837]: ---\"Objects listed\" error:Get".toList,
        message := "---\"Objects listed\" error:Get".toList } = false := by
  refine ⟨?_, by decide, by decide, by decide⟩
  intro e h1 h2
  have hex : shouldExclude "ERROR".toList e.raw_line = true := by
    simp only [shouldExclude, Bool.and_eq_true, decide_eq_true_eq]
    exact ⟨⟨trivial, by simpa using h1⟩, by simpa using h2⟩
  show (if shouldExclude "ERROR".toList e.raw_line then false
        else levelMatcher "ERROR".toList e.raw_line) = false
  rw [hex]
  simp

/-- Witness for C3: the exclusion rule fires on a concrete trace line. -/
theorem level_error_exclusion_rule_witness :
    (Filter.level "ERROR".toList).apply
      { pod_name := "p".toList, raw_line := "Trace[9]: foo error:Get".toList,
        message := "foo error:Get".toList } = false :=
  level_error_exclusion_rule.1 _ (by decide) (by decide)

/-- C9.  `LevelFilter::new` succeeds exactly when the uppercased level is
in the fixed valid set; `BOGUS` fails, lowercase `warn` succeeds. -/
theorem level_filter_validation :
    (∀ s : List Char, (levelNew s).isSome = true ↔ upperChars s ∈ validLevels) ∧
    levelNew "BOGUS".toList = none ∧
    levelNew "warn".toList = some (.level "WARN".toList) := by
  refine ⟨?_, rfl, rfl⟩
  intro s
  unfold levelNew
  by_cases h : upperChars s ∈ validLevels
  · simp [h]
  · simp [h]

/-! ## LogEntry parsing -/

theorem afterFirstSpace_of_append {pre post : List Char} (h : ' ' ∉ pre) :
    afterFirstSpace (pre ++ ' ' :: post) = some post := by
  induction pre with
  | nil => simp [afterFirstSpace]
  | cons c cs ih =>
    have hc : ¬c = ' ' := fun hc => h (by simp [hc])
    simp only [List.cons_append, afterFirstSpace, hc, if_false]
    exact ih (fun hm => h (List.mem_cons_of_mem _ hm))

theorem afterFirstSpace_of_not_mem {l : List Char} (h : ' ' ∉ l) :
    afterFirstSpace l = none := by
  induction l with
  | nil => rfl
  | cons c cs ih =>
    have hc : ¬c = ' ' := fun hc => h (by simp [hc])
    simp only [afterFirstSpace, hc, if_false]
    exact ih (fun hm => h (List.mem_cons_of_mem _ hm))

/-- C6.  `LogEntry::parse` first strips carriage returns and NUL bytes
into `raw_line`; `message` is everything after the first space of the
cleaned line when it has one, and the whole cleaned line otherwise. -/
theorem log_entry_parse_message :
    (∀ pod raw : List Char, (LogEntry.parse pod raw).raw_line = cleanLine raw) ∧
    (∀ pod raw pre post : List Char, ' ' ∉ pre → cleanLine raw = pre ++ ' ' :: post →
        (LogEntry.parse pod raw).message = post) ∧
    (∀ pod raw : List Char, ' ' ∉ cleanLine raw →
        (LogEntry.parse pod raw).message = (LogEntry.parse pod raw).raw_line) := by
  refine ⟨fun pod raw => rfl, ?_, ?_⟩
  · intro pod raw pre post hpre hsplit
    show (match afterFirstSpace (cleanLine raw) with
          | some m => m
          | none => cleanLine raw) = post
    rw [hsplit, afterFirstSpace_of_append hpre]
  · intro pod raw h
    show (match afterFirstSpace (cleanLine raw) with
          | some m => m
          | none => cleanLine raw) = (LogEntry.parse pod raw).raw_line
    rw [afterFirstSpace_of_not_mem h]
    rfl

/-- Witness for C6: message extraction after a concrete timestamp token. -/
theorem log_entry_parse_message_witness :
    (LogEntry.parse "p".toList "2023-05-01T12:34:56Z Hello".toList).message =
      "Hello".toList :=
  log_entry_parse_message.2.1 "p".toList "2023-05-01T12:34:56Z Hello".toList
    "2023-05-01T12:34:56Z".toList "Hello".toList (by decide) (by decide)

/-! ## Composite filter semantics -/

theorem applyAll_eq (cs : List Filter) (e : LogEntry) :
    Filter.applyAll cs e = true ↔ ∀ f ∈ cs, f.apply e = true := by
  induction cs with
  | nil => simp [Filter.applyAll]
  | cons f fs ih =>
    show (f.apply e && Filter.applyAll fs e) = true ↔ _
    simp [ih]

theorem applyAny_eq (cs : List Filter) (e : LogEntry) :
    Filter.applyAny cs e = true ↔ ∃ f ∈ cs, f.apply e = true := by
  induction cs with
  | nil => simp [Filter.applyAny]
  | cons f fs ih =>
    show (f.apply e || Filter.applyAny fs e) = true ↔ _
    simp [ih]

/-- C7.  `AndFilter.apply` is true iff every child accepts, `OrFilter.apply`
iff some child accepts (children evaluated left to right, short-circuit);
an empty AND is vacuously true, an empty OR vacuously false. -/
theorem composite_filter_semantics (cs : List Filter) (e : LogEntry) :
    ((Filter.and cs).apply e = true ↔ ∀ f ∈ cs, f.apply e = true) ∧
    ((Filter.or cs).apply e = true ↔ ∃ f ∈ cs, f.apply e = true) ∧
    (Filter.and []).apply e = true ∧ (Filter.or []).apply e = false :=
  ⟨applyAll_eq cs e, applyAny_eq cs e, rfl, rfl⟩

/-! ## Grep filter applies to the raw line -/

/-- C8.  `GrepFilter::apply` tests `raw_line`, not `message`: the result
is invariant under changes of `message`, and a pattern occurring only in
the stripped timestamp token still matches. -/
theorem grep_filter_tests_raw_line :
    (∀ (p : List Char) (re : RE) (e1 e2 : LogEntry), e1.raw_line = e2.raw_line →
        (Filter.grep p re).apply e1 = (Filter.grep p re).apply e2) ∧
    grepNew "2023".toList = some (.grep "2023".toList
      (.seq (.chr '2') (.seq (.chr '0') (.seq (.chr '2') (.seq (.chr '3') .eps))))) ∧
    (Filter.grep "2023".toList
      (.seq (.chr '2') (.seq (.chr '0') (.seq (.chr '2') (.seq (.chr '3') .eps))))).apply
      (LogEntry.parse "p".toList "2023-05-01 Hello".toList) = true ∧
    containsSub "2023".toList
      (LogEntry.parse "p".toList "2023-05-01 Hello".toList).message = false := by
  refine ⟨?_, rfl, by decide, by decide⟩
  intro p re e1 e2 h
  show reSearch re e1.raw_line = reSearch re e2.raw_line
  rw [h]

/-- Witness for C8: two entries sharing a raw line get the same result. -/
theorem grep_filter_tests_raw_line_witness :
    (Filter.grep "x".toList (.chr 'x')).apply
      { pod_name := "a".toList, raw_line := "x y".toList, message := "y".toList } =
    (Filter.grep "x".toList (.chr 'x')).apply
      { pod_name := "b".toList, raw_line := "x y".toList, message := "z".toList } :=
  grep_filter_tests_raw_line.1 "x".toList (.chr 'x') _ _ rfl

/-! ## Short pod names -/

/-- C10.  Both short-name operations slice the pod name at byte offset
`min 8 (length)`: they return the first `min 8 length` bytes whenever that
offset is a character boundary, but panic (modelled `none`) on a name
longer than 8 bytes whose offset 8 falls inside a multi-byte UTF-8
character — e.g. `abcdefgé` (9 bytes, `é` = `0xC3 0xA9` at offsets 7–8). -/
theorem short_name_byte_slice :
    (∀ name : List Nat, isCharBoundary name (min 8 name.length) = true →
        shortName name = some (name.take (min 8 name.length)) ∧
        prefixShortSlice name = some (name.take (min 8 name.length))) ∧
    shortName [97, 98, 99, 100, 101, 102, 103, 195, 169] = none ∧
    prefixShortSlice [97, 98, 99, 100, 101, 102, 103, 195, 169] = none := by
  refine ⟨?_, rfl, rfl⟩
  intro name h
  constructor
  · unfold shortName
    by_cases hl : name.length ≤ 8
    · have hmin : min 8 name.length = name.length := by omega
      rw [if_pos hl, hmin, List.take_length]
    · have hmin : min 8 name.length = 8 := by omega
      rw [hmin] at h
      rw [if_neg hl, if_pos h, hmin]
  · unfold prefixShortSlice
    simp only [h, if_pos]

/-- Witness for C10: a 9-byte ASCII name is sliced to its first 8 bytes. -/
theorem short_name_byte_slice_witness :
    shortName [1, 2, 3, 4, 5, 6, 7, 8, 9] = some [1, 2, 3, 4, 5, 6, 7, 8] ∧
    prefixShortSlice [1, 2, 3, 4, 5, 6, 7, 8, 9] = some [1, 2, 3, 4, 5, 6, 7, 8] :=
  short_name_byte_slice.1 [1, 2, 3, 4, 5, 6, 7, 8, 9] (by decide)

/-! ## Filter-expression combination -/

theorem collectFilters_all_empty (mk : List Char → Option Filter) :
    ∀ frags : List (List Char), (∀ f ∈ frags, trimChars f = []) →
      collectFilters mk frags = .ok [] := by
  intro frags h
  induction frags with
  | nil => rfl
  | cons f fs ih =>
    have hf : trimChars f = [] := h f (by simp)
    show (if trimChars f = [] then collectFilters mk fs
          else match mk (trimChars f) with
               | some g =>
                 match collectFilters mk fs with
                 | .ok gs => .ok (g :: gs)
                 | .error e => .error e
               | none => .error (trimChars f)) = .ok []
    rw [if_pos hf]
    exact ih (fun g hg => h g (by simp [hg]))

/-- C4.  The filter-combination policy of `run`: a pattern expression with
`&` becomes an AndFilter of PatternFilters, otherwise an OrFilter; a level
expression always becomes an OrFilter; with both expressions present the
two combinators are joined by an AndFilter; empty fragments are skipped
and an all-empty expression contributes no filter. -/
theorem filter_expression_combination :
    buildFilters (some "err&warn".toList) none = .ok [.and
      [.grep "err".toList (.seq (.chr 'e') (.seq (.chr 'r') (.seq (.chr 'r') .eps))),
       .grep "warn".toList
         (.seq (.chr 'w') (.seq (.chr 'a') (.seq (.chr 'r') (.seq (.chr 'n') .eps))))]] ∧
    buildFilters (some "err,warn".toList) none = .ok [.or
      [.grep "err".toList (.seq (.chr 'e') (.seq (.chr 'r') (.seq (.chr 'r') .eps))),
       .grep "warn".toList
         (.seq (.chr 'w') (.seq (.chr 'a') (.seq (.chr 'r') (.seq (.chr 'n') .eps))))]] ∧
    buildFilters none (some "warn,error".toList) =
      .ok [.or [.level "WARN".toList, .level "ERROR".toList]] ∧
    buildFilters (some "a, ,b".toList) none = .ok [.or
      [.grep "a".toList (.seq (.chr 'a') .eps),
       .grep "b".toList (.seq (.chr 'b') .eps)]] ∧
    (∀ (g l : List Char) (cg cl : Filter),
        grepCombinator g = .ok (some cg) → levelCombinator l = .ok (some cl) →
        buildFilters (some g) (some l) = .ok [.and [cg, cl]]) ∧
    (∀ g : List Char,
        (∀ f ∈ (if g.elem '&' then splitOnChar '&' g else splitOnChar ',' g),
          trimChars f = []) →
        buildFilters (some g) none = .ok []) ∧
    (∀ l : List Char, (∀ f ∈ splitOnChar ',' l, trimChars f = []) →
        buildFilters none (some l) = .ok []) := by
  refine ⟨rfl, rfl, rfl, rfl, ?_, ?_, ?_⟩
  · intro g l cg cl hg hl
    simp only [buildFilters, hg, hl]
    rfl
  · intro g hall
    simp only [buildFilters, grepCombinator]
    rw [collectFilters_all_empty grepNew _ hall]
    rfl
  · intro l hall
    simp only [buildFilters, levelCombinator]
    rw [collectFilters_all_empty levelNew _ hall]
    rfl

/-- Witness for C4: a pattern and a level expression together produce an
AndFilter over the two combinators. -/
theorem filter_expression_combination_witness :
    buildFilters (some "e".toList) (some "warn".toList) =
      .ok [.and [.or [.grep "e".toList (.seq (.chr 'e') .eps)],
                 .or [.level "WARN".toList]]] :=
  filter_expression_combination.2.2.2.2.1 "e".toList "warn".toList _ _ rfl rfl

/-! ## Tail-mode buffering -/

/-- The entries of pod `p` that pass the filter gate, in stream order: the
specification-side description of what tail mode buffers for `p`. -/
def podFilteredEntries (filters : List Filter) (p : List Char)
    (stream : List (Except (List Char) LogEntry)) : List LogEntry :=
  stream.filterMap (fun r =>
    match r with
    | .ok e => if passesFilters filters e = true ∧ e.pod_name = p then some e else none
    | .error _ => none)

theorem lookupBuf_updateBuffer (e : LogEntry) (p : List Char) :
    ∀ buffers : List (List Char × List LogEntry),
      lookupBuf p (updateBuffer buffers e) =
        if e.pod_name = p then (lookupBuf p buffers).map (fun b => b ++ [e])
        else lookupBuf p buffers := by
  intro buffers
  induction buffers with
  | nil =>
    by_cases h : e.pod_name = p <;> simp [updateBuffer, lookupBuf, h]
  | cons qb rest ih =>
    obtain ⟨q, buf⟩ := qb
    by_cases hq : q = e.pod_name
    · by_cases hp : e.pod_name = p
      · have hqp : q = p := hq.trans hp
        simp [updateBuffer, lookupBuf, hq, hqp, hp]
      · have hqp : ¬q = p := fun h => hp (hq.symm.trans h)
        simp [updateBuffer, lookupBuf, hq, hqp, hp]
    · by_cases hp2 : q = p
      · have hep : ¬e.pod_name = p := fun h => hq (hp2.trans h.symm)
        have hq2 : ¬p = e.pod_name := fun h => hep h.symm
        simp [updateBuffer, lookupBuf, hq, hp2, hep, hq2]
      · simp [updateBuffer, lookupBuf, hq, hp2, ih]

theorem tailCollect_lookup (filters : List Filter) (p : List Char) :
    ∀ (stream : List (Except (List Char) LogEntry))
      (buffers : List (List Char × List LogEntry)),
      lookupBuf p (tailCollect filters buffers stream) =
        (lookupBuf p buffers).map (fun b => b ++ podFilteredEntries filters p stream) := by
  intro stream
  induction stream with
  | nil =>
    intro buffers
    cases h : lookupBuf p buffers <;> simp [tailCollect, podFilteredEntries, h]
  | cons r rest ih =>
    intro buffers
    cases r with
    | error msg =>
      show lookupBuf p (tailCollect filters buffers rest) = _
      rw [ih]
      simp [podFilteredEntries]
    | ok e =>
      show lookupBuf p (tailCollect filters
          (if passesFilters filters e then updateBuffer buffers e else buffers) rest) = _
      by_cases hpass : passesFilters filters e
      · rw [if_pos hpass, ih, lookupBuf_updateBuffer]
        by_cases hpod : e.pod_name = p
        · rw [if_pos hpod]
          cases hh : lookupBuf p buffers <;>
            simp [podFilteredEntries, hpass, hpod, hh]
        · rw [if_neg hpod]
          cases hh : lookupBuf p buffers <;>
            simp [podFilteredEntries, hpass, hpod, hh]
      · rw [if_neg hpass, ih]
        cases hh : lookupBuf p buffers <;>
          simp [podFilteredEntries, hpass, hh]

theorem lookupBuf_initBuffers (p : List Char) :
    ∀ pods : List (List Char),
      lookupBuf p (initBuffers pods) = if p ∈ pods then some [] else none := by
  intro pods
  induction pods with
  | nil => simp [initBuffers, lookupBuf]
  | cons q qs ih =>
    by_cases h : q = p
    · subst h
      show lookupBuf q ((q, []) :: initBuffers qs) = _
      simp [lookupBuf]
    · have h2 : ¬p = q := fun hh => h hh.symm
      show lookupBuf p ((q, []) :: initBuffers qs) = _
      simp [lookupBuf, h, h2, ih]

theorem updateBuffer_keys (e : LogEntry) :
    ∀ buffers : List (List Char × List LogEntry),
      (updateBuffer buffers e).map Prod.fst = buffers.map Prod.fst := by
  intro buffers
  induction buffers with
  | nil => rfl
  | cons qb rest ih =>
    obtain ⟨q, buf⟩ := qb
    by_cases h : q = e.pod_name <;> simp [updateBuffer, h, ih]

theorem tailCollect_keys (filters : List Filter) :
    ∀ (stream : List (Except (List Char) LogEntry))
      (buffers : List (List Char × List LogEntry)),
      (tailCollect filters buffers stream).map Prod.fst = buffers.map Prod.fst := by
  intro stream
  induction stream with
  | nil => intro buffers; rfl
  | cons r rest ih =>
    intro buffers
    cases r with
    | error msg => exact ih buffers
    | ok e =>
      show (tailCollect filters
          (if passesFilters filters e then updateBuffer buffers e else buffers) rest).map
            Prod.fst = _
      by_cases hpass : passesFilters filters e
      · rw [if_pos hpass, ih, updateBuffer_keys]
      · rw [if_neg hpass, ih]

theorem initBuffers_keys (pods : List (List Char)) :
    (initBuffers pods).map Prod.fst = pods := by
  induction pods with
  | nil => rfl
  | cons q qs ih => simp [initBuffers] at ih ⊢; exact ih

theorem tailDisplay_cons (N : Nat) (q : List Char) (buf : List LogEntry)
    (rest : List (List Char × List LogEntry)) :
    tailDisplay N ((q, buf) :: rest) =
      if buf = [] then tailDisplay N rest
      else (q, if buf.length > N then buf.drop (buf.length - N) else buf) ::
        tailDisplay N rest := by
  by_cases hbuf : buf = [] <;> simp [tailDisplay, hbuf]

theorem tailDisplay_not_mem (N : Nat) (p : List Char) :
    ∀ buffers : List (List Char × List LogEntry), p ∉ buffers.map Prod.fst →
      lookupBuf p (tailDisplay N buffers) = none := by
  intro buffers
  induction buffers with
  | nil => intro _; rfl
  | cons qb rest ih =>
    obtain ⟨q, buf⟩ := qb
    intro h
    have hq : ¬q = p := fun hh => h (by simp [hh])
    have hrest : p ∉ rest.map Prod.fst := fun hh => h (by simp [hh])
    rw [tailDisplay_cons]
    by_cases hbuf : buf = []
    · rw [if_pos hbuf]
      exact ih hrest
    · rw [if_neg hbuf]
      simp [lookupBuf, hq, ih hrest]

theorem lookupBuf_tailDisplay (N : Nat) :
    ∀ buffers : List (List Char × List LogEntry), (buffers.map Prod.fst).Nodup →
      ∀ p, lookupBuf p (tailDisplay N buffers) =
        match lookupBuf p buffers with
        | none => none
        | some buf =>
          if buf = [] then none
          else some (if buf.length > N then buf.drop (buf.length - N) else buf) := by
  intro buffers
  induction buffers with
  | nil => intro _ p; rfl
  | cons qb rest ih =>
    obtain ⟨q, buf⟩ := qb
    intro hnd p
    rw [List.map_cons, List.nodup_cons] at hnd
    obtain ⟨hq, hrest⟩ := hnd
    rw [tailDisplay_cons]
    by_cases hp : q = p
    · subst hp
      by_cases hbuf : buf = []
      · rw [if_pos hbuf, tailDisplay_not_mem N q rest hq]
        simp [lookupBuf, hbuf]
      · rw [if_neg hbuf]
        simp [lookupBuf, hbuf]
    · by_cases hbuf : buf = []
      · rw [if_pos hbuf, ih hrest p]
        simp [lookupBuf, hp]
      · rw [if_neg hbuf]
        simp only [lookupBuf, hp, if_false]
        rw [ih hrest p]

/-- C5.  Tail mode keeps one buffer per known pod, filters every entry
before buffering, drains the whole stream, and then shows, for each pod
with a non-empty buffer, the last `min tailCount (buffer length)` of its
filter-passing entries in stream order; entries of unknown pods are never
buffered. -/
theorem tail_mode_buffers (pods : List (List Char)) (tailCount : Nat)
    (filters : List Filter) (stream : List (Except (List Char) LogEntry))
    (p : List Char) (hnd : pods.Nodup) :
    (p ∈ pods →
      lookupBuf p (runTailNoFollow pods tailCount filters stream) =
        (if podFilteredEntries filters p stream = [] then none
         else some ((podFilteredEntries filters p stream).drop
             ((podFilteredEntries filters p stream).length -
              min tailCount (podFilteredEntries filters p stream).length)))) ∧
    (p ∉ pods →
      lookupBuf p (runTailNoFollow pods tailCount filters stream) = none) := by
  have hkeys : (tailCollect filters (initBuffers pods) stream).map Prod.fst = pods := by
    rw [tailCollect_keys, initBuffers_keys]
  constructor
  · intro hp
    unfold runTailNoFollow
    rw [lookupBuf_tailDisplay tailCount _ (by rw [hkeys]; exact hnd) p,
      tailCollect_lookup, lookupBuf_initBuffers, if_pos hp]
    by_cases hemp : podFilteredEntries filters p stream = []
    · simp [hemp]
    · have htrim :
          (if (podFilteredEntries filters p stream).length > tailCount
           then (podFilteredEntries filters p stream).drop
             ((podFilteredEntries filters p stream).length - tailCount)
           else podFilteredEntries filters p stream) =
          (podFilteredEntries filters p stream).drop
            ((podFilteredEntries filters p stream).length -
             min tailCount (podFilteredEntries filters p stream).length) := by
        by_cases hlen : (podFilteredEntries filters p stream).length > tailCount
        · rw [if_pos hlen]
          congr 1
          omega
        · rw [if_neg hlen]
          have h0 : (podFilteredEntries filters p stream).length -
              min tailCount (podFilteredEntries filters p stream).length = 0 := by
            omega
          rw [h0, List.drop_zero]
      simp [hemp, htrim]
  · intro hp
    unfold runTailNoFollow
    apply tailDisplay_not_mem
    rw [hkeys]
    exact hp

/-- Witness for C5: two pods with tail 2; pod `a` emits three passing
lines and pod `b` one; pod `a` shows its last two lines. -/
theorem tail_mode_buffers_witness :
    lookupBuf "a".toList (runTailNoFollow ["a".toList, "b".toList] 2 []
      [.ok { pod_name := "a".toList, raw_line := "1".toList, message := "1".toList },
       .ok { pod_name := "b".toList, raw_line := "x".toList, message := "x".toList },
       .ok { pod_name := "a".toList, raw_line := "2".toList, message := "2".toList },
       .ok { pod_name := "a".toList, raw_line := "3".toList, message := "3".toList }]) =
    some [{ pod_name := "a".toList, raw_line := "2".toList, message := "2".toList },
          { pod_name := "a".toList, raw_line := "3".toList, message := "3".toList }] :=
  (tail_mode_buffers ["a".toList, "b".toList] 2 []
    [.ok { pod_name := "a".toList, raw_line := "1".toList, message := "1".toList },
     .ok { pod_name := "b".toList, raw_line := "x".toList, message := "x".toList },
     .ok { pod_name := "a".toList, raw_line := "2".toList, message := "2".toList },
     .ok { pod_name := "a".toList, raw_line := "3".toList, message := "3".toList }]
    "a".toList (by decide)).1 (by decide)

end Klogrs
